import Mathlib

/-!
Verification of the AHKv2_LLMs script-feed pipeline.

A shallow embedding of the fetch → normalize → dedup → merge → persist
pipeline of the AHKv2_LLMs repository, together with proofs and refutations
of the specified properties.

Embedded sources:
* `ScriptUpdateManager` (browser update manager): `mergeScripts`,
  `parseGitHubRepos`, `fetchFromGitHub`, `search`, `getRecent`,
  `loadFromCache`, `saveToCache`, `notifyUpdate`, `update`.
* `scripts/build.js`: `mergeScripts` (Date-based comparison), the
  repository-to-script normalization inside `fetchGitHubRepos`.
* `scripts/update-feed.js`: `fetchFromGitHub`/`searchRepos`,
  `normalizeRepo`, `deduplicateRepos`, the per-query loop of `updateFeed`.

Conventions of the embedding:
* Machine time is passed explicitly (`now`-style parameters).
* JavaScript exceptions are `Except`; a `try`/`catch` is a `match`.
* JavaScript string relational operators are code-unit lexicographic;
  all strings involved are ASCII, where Lean string order coincides.
* `new Date(str)` is modeled by `jsDateMillis`, an executable parser for
  the ECMAScript date-time string format restricted to forms with an
  explicit UTC offset (or date-only forms, which ECMAScript reads as UTC).
  Forms outside this subset (including local-time forms, whose value is
  environment dependent) map to `none`, which behaves like an invalid
  date: every `>` comparison against it is `false`, exactly as NaN
  comparisons evaluate in JavaScript.
-/

namespace AhkFeed

/-! ## JavaScript primitives -/

/-- Value of a decimal digit character, `none` on a non-digit. -/
def digitVal (c : Char) : Option Nat :=
  if c.isDigit then some (c.toNat - 48) else none

/-- Read exactly two decimal digits. -/
def read2 : List Char → Option (Nat × List Char)
  | c1 :: c2 :: rest => do
    let d1 ← digitVal c1
    let d2 ← digitVal c2
    pure (d1 * 10 + d2, rest)
  | _ => none

/-- Read exactly three decimal digits. -/
def read3 : List Char → Option (Nat × List Char)
  | c1 :: c2 :: c3 :: rest => do
    let d1 ← digitVal c1
    let d2 ← digitVal c2
    let d3 ← digitVal c3
    pure (d1 * 100 + d2 * 10 + d3, rest)
  | _ => none

/-- Read exactly four decimal digits. -/
def read4 : List Char → Option (Nat × List Char)
  | c1 :: c2 :: c3 :: c4 :: rest => do
    let d1 ← digitVal c1
    let d2 ← digitVal c2
    let d3 ← digitVal c3
    let d4 ← digitVal c4
    pure (d1 * 1000 + d2 * 100 + d3 * 10 + d4, rest)
  | _ => none

/-- Expect one specific character. -/
def expectChar (c : Char) : List Char → Option (List Char)
  | x :: rest => if x = c then some rest else none
  | [] => none

/-- Gregorian leap year. -/
def isLeapYear (y : Nat) : Bool :=
  y % 4 = 0 && (y % 100 ≠ 0 || y % 400 = 0)

/-- Number of days in a month (1-based months). -/
def daysInMonth (y m : Nat) : Nat :=
  match m with
  | 1 => 31 | 2 => if isLeapYear y then 29 else 28 | 3 => 31
  | 4 => 30 | 5 => 31 | 6 => 30 | 7 => 31 | 8 => 31
  | 9 => 30 | 10 => 31 | 11 => 30 | 12 => 31
  | _ => 0

/-- Days since the Unix epoch of the civil date `y-m-d` (valid inputs:
`1 ≤ y`, `1 ≤ m ≤ 12`, `1 ≤ d ≤ daysInMonth y m`); the standard
era-based civil calendar computation, carried out in `Nat` and shifted
to the epoch at the end. -/
def daysFromCivil (y m d : Nat) : Int :=
  let yy := if m ≤ 2 then y - 1 else y
  let era := yy / 400
  let yoe := yy % 400
  let mp := (m + 9) % 12
  let doy := (153 * mp + 2) / 5 + d - 1
  let doe := yoe * 365 + yoe / 4 - yoe / 100 + doy
  (era * 146097 + doe : Int) - 719468

/-- UTC offset suffix in minutes: `Z`, or `±HH:MM`. -/
def parseOffset : List Char → Option Int
  | ['Z'] => some 0
  | '+' :: rest => do
    let (h, r1) ← read2 rest
    let r2 ← expectChar ':' r1
    let (mi, r3) ← read2 r2
    if r3 = [] && h ≤ 23 && mi ≤ 59 then pure (h * 60 + mi) else none
  | '-' :: rest => do
    let (h, r1) ← read2 rest
    let r2 ← expectChar ':' r1
    let (mi, r3) ← read2 r2
    if r3 = [] && h ≤ 23 && mi ≤ 59 then pure (-(h * 60 + mi : Int)) else none
  | _ => none

/-- Optional `:SS` and `.sss` parts of a time; returns seconds,
milliseconds and the remaining characters. -/
def parseSecMs (r : List Char) : Option (Nat × Nat × List Char) :=
  match r with
  | ':' :: r1 => do
    let (s, r2) ← read2 r1
    if s ≤ 59 then
      match r2 with
      | '.' :: r3 => do
        let (ms, r4) ← read3 r3
        pure (s, ms, r4)
      | _ => pure (s, 0, r2)
    else none
  | _ => some (0, 0, r)

/-- `new Date(str).getTime()` for the modeled subset of the ECMAScript
date-time string format: `YYYY-MM-DD` (read as UTC midnight) and
`YYYY-MM-DDTHH:MM[:SS[.sss]](Z|±HH:MM)`.  Returns milliseconds since the
Unix epoch, or `none` for anything else (invalid dates, and local-time
forms whose value is environment dependent). -/
def jsDateMillis (str : String) : Option Int := do
  let (y, r) ← read4 str.data
  let r ← expectChar '-' r
  let (mo, r) ← read2 r
  let r ← expectChar '-' r
  let (d, r) ← read2 r
  if 1 ≤ y && 1 ≤ mo && mo ≤ 12 && 1 ≤ d && d ≤ daysInMonth y mo then
    let dayMs : Int := daysFromCivil y mo d * 86400000
    match r with
    | [] => pure dayMs
    | 'T' :: rest => do
      let (h, r1) ← read2 rest
      let r2 ← expectChar ':' r1
      let (mi, r3) ← read2 r2
      if h ≤ 23 && mi ≤ 59 then
        let (s, ms, r4) ← parseSecMs r3
        let off ← parseOffset r4
        pure (dayMs + h * 3600000 + mi * 60000 + s * 1000 + ms - off * 60000)
      else none
    | _ => none
  else none

/-- JavaScript `>` between two (possibly invalid) date values: `false`
whenever either operand is invalid (NaN semantics). -/
def jsGtM (a b : Option Int) : Bool :=
  match a, b with
  | some x, some y => decide (x > y)
  | _, _ => false

/-- JavaScript string `<`: lexicographic by code unit (on the BMP data
appearing here, code units and code points coincide). -/
def jsStrLt : List Char → List Char → Bool
  | [], [] => false
  | [], _ :: _ => true
  | _ :: _, [] => false
  | a :: as, b :: bs =>
    if a.toNat < b.toNat then true
    else if b.toNat < a.toNat then false
    else jsStrLt as bs

/-- The replacement test of `ScriptUpdateManager.mergeScripts`:
`incoming.lastModified > existing.lastModified` on the raw field values,
i.e. JavaScript string comparison (code-unit lexicographic). -/
def strNewer (incoming existing : String) : Bool :=
  jsStrLt existing.data incoming.data

/-- The replacement test of `mergeScripts` in `build.js`:
`new Date(incoming.lastModified) > new Date(existing.lastModified)`. -/
def dateNewer (incoming existing : String) : Bool :=
  jsGtM (jsDateMillis incoming) (jsDateMillis existing)

/-- JavaScript `a || dflt` for a nullable string `a`: the default is used
when the value is absent or the empty string (both falsy). -/
def jsOrStr (a : Option String) (dflt : String) : String :=
  match a with
  | none => dflt
  | some s => if s = "" then dflt else s

/-- JavaScript `String.prototype.toLowerCase` on ASCII data, stated on
the character data of the string. -/
def jsToLower (s : String) : String := ⟨s.data.map Char.toLower⟩

/-- JavaScript `haystack.includes(needle)` (substring test). -/
def includesChars (needle : List Char) : List Char → Bool
  | [] => needle.isEmpty
  | c :: cs => needle.isPrefixOf (c :: cs) || includesChars needle cs

/-- JavaScript `haystack.includes(needle)` on strings. -/
def strIncludes (haystack needle : String) : Bool :=
  includesChars needle.data haystack.data

-- Sanity checks of the date model against known epoch values.
example : jsDateMillis "1970-01-01" = some 0 := by decide
example : jsDateMillis "2024-01-01T03:00:00Z" = some 1704078000000 := by decide
example : jsDateMillis "2024-01-01T12:00:00+10:00" = some 1704074400000 := by decide
example : jsDateMillis "2024-01-03" = some 1704240000000 := by decide
example : jsDateMillis "not a date" = none := by decide

/-! ## Data model

The canonical record shape (spec section 3), as produced by
`parseGitHubRepos` in the browser manager.  The `code` field — a fenced
text blob generated by `generateRepoCodeBlock` — is omitted: its content
embeds `toLocaleDateString()`, which is locale dependent, and no verified
operation reads it (merging, search, sorting and caching never inspect
`code`). -/

/-- Canonical script record of the browser `ScriptUpdateManager`. -/
structure Script where
  id : String
  title : String
  category : String
  description : String
  tags : List String
  difficulty : String
  dateAdded : String
  lastModified : String
  source : String
  url : String
  stars : Int
  owner : String
deriving DecidableEq

/-- Script record of `build.js`, which additionally carries `forks`. -/
structure BScript where
  id : String
  title : String
  category : String
  description : String
  tags : List String
  difficulty : String
  dateAdded : String
  lastModified : String
  source : String
  url : String
  stars : Int
  forks : Int
  owner : String
deriving DecidableEq

/-- Owner sub-object of a GitHub repository item. -/
structure RepoOwner where
  login : String
  avatar_url : String
  html_url : String
deriving DecidableEq

/-- Raw upstream GitHub repository item (the fields the three
normalizers read).  Nullable upstream fields are `Option`. -/
structure RawRepo where
  id : Int
  name : String
  full_name : String
  html_url : String
  clone_url : String
  description : Option String
  stargazers_count : Int
  forks_count : Int
  language : Option String
  topics : Option (List String)
  updated_at : String
  created_at : String
  pushed_at : String
  owner : RepoOwner
  default_branch : Option String
  open_issues_count : Int
  license_spdx : Option String
  archived : Bool
  fork : Bool
deriving DecidableEq

/-- Normalized repository record of `update-feed.js` (`normalizeRepo`
output). -/
structure Repo where
  id : Int
  name : String
  full_name : String
  html_url : String
  description : String
  stargazers_count : Int
  forks_count : Int
  language : String
  topics : List String
  updated_at : String
  created_at : String
  pushed_at : String
  owner : RepoOwner
  default_branch : Option String
  open_issues_count : Int
  license : Option String
  is_archived : Bool
  is_fork : Bool
deriving DecidableEq

/-! ## Normalizers -/

/-- `ScriptUpdateManager.parseGitHubRepos`, on one repository item.
`repo.description || ...` and `repo.topics || []` follow JavaScript
falsiness via `jsOrStr`/`getD`.  Note: no truncation of `tags`. -/
def parseGitHubRepo (repo : RawRepo) : Script :=
  { id := "github-" ++ toString repo.id
    title := repo.name
    category := "GitHub Repository"
    description := jsOrStr repo.description "No description available"
    tags := ["github", "repository"] ++ repo.topics.getD []
    difficulty := "varies"
    dateAdded := repo.created_at
    lastModified := repo.updated_at
    source := "github"
    url := repo.html_url
    stars := repo.stargazers_count
    owner := repo.owner.login }

/-- `ScriptUpdateManager.parseGitHubRepos` over a list of items. -/
def parseGitHubRepos (repos : List RawRepo) : List Script :=
  repos.map parseGitHubRepo

/-- The repository-to-script mapping inside `fetchGitHubRepos` of
`build.js`; unlike the browser variant it carries `forks` and truncates
`tags` with `.slice(0, 8)`. -/
def buildRepoToScript (repo : RawRepo) : BScript :=
  { id := "github-" ++ toString repo.id
    title := repo.name
    category := "GitHub Repository"
    description := jsOrStr repo.description "No description available"
    tags := (["github", "repository"] ++ repo.topics.getD []).take 8
    difficulty := "varies"
    dateAdded := repo.created_at
    lastModified := repo.updated_at
    source := "github"
    url := repo.html_url
    stars := repo.stargazers_count
    forks := repo.forks_count
    owner := repo.owner.login }

/-- The function `normalizeRepo` of `update-feed.js`.  The defaults for
`description` (empty string) and `language` (the fixed language name)
follow JavaScript falsiness via `jsOrStr`; `topics || []` only replaces
`null` (an empty array is truthy). -/
def normalizeRepo (repo : RawRepo) : Repo :=
  { id := repo.id
    name := repo.name
    full_name := repo.full_name
    html_url := repo.html_url
    description := jsOrStr repo.description ""
    stargazers_count := repo.stargazers_count
    forks_count := repo.forks_count
    language := jsOrStr repo.language "AutoHotkey"
    topics := repo.topics.getD []
    updated_at := repo.updated_at
    created_at := repo.created_at
    pushed_at := repo.pushed_at
    owner := repo.owner
    default_branch := repo.default_branch
    open_issues_count := repo.open_issues_count
    license := repo.license_spdx
    is_archived := repo.archived
    is_fork := repo.fork }

/-! ## Deduplication (`update-feed.js`) -/

/-- Loop of `deduplicateRepos`: `seen` is the set of ids already kept; a
repo is kept exactly when its id has not been seen before. -/
def dedupGo (seen : List Int) : List Repo → List Repo
  | [] => []
  | r :: rs =>
    if seen.contains r.id then dedupGo seen rs
    else r :: dedupGo (r.id :: seen) rs

/-- `deduplicateRepos` of `update-feed.js`: keeps the first occurrence of
every id. -/
def deduplicateRepos (repos : List Repo) : List Repo :=
  dedupGo [] repos

/-! ## Fetch layer -/

/-- Severity of a console message (`console.warn` vs `console.error`). -/
inductive LogLevel where
  | info | warn | error
deriving DecidableEq

/-- A logged console message. -/
structure LogEntry where
  level : LogLevel
  message : String
deriving DecidableEq

/-- Parsed body of a successful search response; `items` is nullable
(`data.items || []` at both call sites). -/
structure SearchResult where
  items : Option (List RawRepo)
deriving DecidableEq

/-- Outcome of one HTTPS search request, as the transport hands it to the
code: a 200 response with valid JSON, a 200 response whose body fails to
parse, a non-200 status, or a network-level error. -/
inductive FetchResponse where
  | ok (result : SearchResult)
  | badJson
  | httpStatus (code : Nat)
  | networkError (msg : String)
deriving DecidableEq

/-- `fetchFromGitHub` + `searchRepos` of `update-feed.js` for one query:
status 200 resolves with `result.items || []`; a parse failure, a 403
(rate limit) and any other status reject with an error. -/
def searchReposUF (resp : FetchResponse) : Except String (List RawRepo) :=
  match resp with
  | .ok result => .ok (result.items.getD [])
  | .badJson => .error "Failed to parse response"
  | .httpStatus 403 =>
      .error "GitHub API rate limit exceeded. Set GITHUB_TOKEN for higher limits."
  | .httpStatus code => .error ("GitHub API error: " ++ toString code)
  | .networkError msg => .error msg

/-- The per-query loop of `updateFeed` (`update-feed.js`): each query is
tried in order; a successful query appends its normalized items, a
rejected query is caught, logged via `console.error`, and skipped.
`resps` is the transport outcome for each configured query, in order. -/
def updateFeedFetch (resps : List FetchResponse) : List Repo × List LogEntry :=
  resps.foldl
    (fun acc resp =>
      match searchReposUF resp with
      | .ok repos => (acc.1 ++ repos.map normalizeRepo, acc.2)
      | .error e =>
          (acc.1, acc.2 ++ [⟨.error, "  Error with query: " ++ e⟩]))
    ([], [])

/-- `ScriptUpdateManager.fetchFromGitHub`: returns `[]` when fetching is
disabled; a 403 yields `[]` with a `console.warn`; any other failure
(thrown and caught) yields `[]` with a `console.error`; a success parses
`data.items || []`. -/
def fetchFromGitHubUM (enable : Bool) (resp : FetchResponse) :
    List Script × List LogEntry :=
  if !enable then ([], [])
  else
    match resp with
    | .httpStatus 403 => ([], [⟨.warn, "GitHub API rate limit reached"⟩])
    | .httpStatus code =>
        ([], [⟨.error, "GitHub API error: " ++ toString code⟩])
    | .badJson => ([], [⟨.error, "Error fetching from GitHub"⟩])
    | .networkError msg => ([], [⟨.error, msg⟩])
    | .ok result => (parseGitHubRepos (result.items.getD []), [])

/-! ## The merge loop

`ScriptUpdateManager.mergeScripts` and `mergeScripts` of `build.js` share
the same loop, differing only in the replacement test (raw string `>`
versus `new Date(...) >`), so the loop is embedded once, parametrized by
the record projections and the test. -/

/-- Parameters of a merge: how to read a record id, how to read its
`lastModified`, and the replacement test applied to
(incoming, existing) `lastModified` values. -/
structure MergeSpec (α : Type) where
  idOf : α → String
  lmOf : α → String
  newer : String → String → Bool

/-- The `else` branch of the merge loop: `findIndex` of the first record
with the incoming id, replaced in place when the incoming record passes
the replacement test; a missing index (impossible when the id is known
present) leaves the list unchanged. -/
def replaceFirstIfNewer (ms : MergeSpec α) : List α → α → List α
  | [], _ => []
  | x :: xs, s =>
    if ms.idOf x == ms.idOf s then
      if ms.newer (ms.lmOf s) (ms.lmOf x) then s :: xs else x :: xs
    else x :: replaceFirstIfNewer ms xs s

/-- One iteration of the merge loop over the pair
(current scripts, `existingIds` set): an unseen id is appended and its id
recorded; a seen id goes through replace-if-newer. -/
def mergeLoopStep (ms : MergeSpec α) (st : List α × List String) (s : α) :
    List α × List String :=
  if st.2.contains (ms.idOf s) then (replaceFirstIfNewer ms st.1 s, st.2)
  else (st.1 ++ [s], st.2 ++ [ms.idOf s])

/-- The merge loop: `existingIds` seeded from the base ids, then one
`mergeLoopStep` per incoming record. -/
def mergeBy (ms : MergeSpec α) (base newScripts : List α) : List α :=
  (newScripts.foldl (mergeLoopStep ms) (base, base.map ms.idOf)).1

/-- `ScriptUpdateManager.mergeScripts`: the replacement test is raw
JavaScript `>` on the `lastModified` strings. -/
def mergeScriptsUM (base newScripts : List Script) : List Script :=
  mergeBy ⟨Script.id, Script.lastModified, strNewer⟩ base newScripts

/-- `mergeScripts` of `build.js`: the replacement test converts both
`lastModified` values with `new Date(...)` before comparing (the
added/updated counters it also maintains are log-only). -/
def mergeScriptsBuild (base newScripts : List BScript) : List BScript :=
  mergeBy ⟨BScript.id, BScript.lastModified, dateNewer⟩ base newScripts

/-- One iteration of the merge loop with the id set represented by the
ids present in the accumulator itself (justified below by the loop
invariant that `existingIds` holds exactly the ids of the current
scripts). -/
def mergeStep (ms : MergeSpec α) (scripts : List α) (s : α) : List α :=
  if scripts.any (fun x => ms.idOf x == ms.idOf s) then
    replaceFirstIfNewer ms scripts s
  else scripts ++ [s]

/-! ### The id-set invariant: `mergeBy` equals the `mergeStep` fold -/

/-- `replaceFirstIfNewer` never changes the id sequence (the inserted
record carries the same id as the record it replaces). -/
theorem replaceFirst_map_id (ms : MergeSpec α) (s : α) :
    ∀ l : List α, (replaceFirstIfNewer ms l s).map ms.idOf = l.map ms.idOf := by
  intro l
  induction l with
  | nil => rfl
  | cons x xs ih =>
    cases hb : ms.idOf x == ms.idOf s with
    | true =>
      have hx : ms.idOf x = ms.idOf s := by simpa using hb
      cases hc : ms.newer (ms.lmOf s) (ms.lmOf x) with
      | true => simp [replaceFirstIfNewer, hb, hc, hx]
      | false => simp [replaceFirstIfNewer, hb, hc]
    | false => simp [replaceFirstIfNewer, hb, ih]

/-- The id-set invariant: the recorded id list contains exactly the ids
of the current script list. -/
def IdsInv (ms : MergeSpec α) (st : List α × List String) : Prop :=
  ∀ i : String, i ∈ st.2 ↔ ∃ x ∈ st.1, ms.idOf x = i

theorem mergeLoopStep_eq (ms : MergeSpec α) (st : List α × List String)
    (s : α) (h : IdsInv ms st) :
    (mergeLoopStep ms st s).1 = mergeStep ms st.1 s ∧
      IdsInv ms (mergeLoopStep ms st s) := by
  have hmem : st.2.contains (ms.idOf s) = st.1.any fun x => ms.idOf x == ms.idOf s := by
    rcases hb : st.1.any fun x => ms.idOf x == ms.idOf s with _ | _
    · rw [List.any_eq_false] at hb
      have : ms.idOf s ∉ st.2 := by
        rw [h]
        rintro ⟨x, hx, hxi⟩
        exact hb x hx (by simp [hxi])
      simpa [List.elem_iff] using this
    · rw [List.any_eq_true] at hb
      obtain ⟨x, hx, hxi⟩ := hb
      have : ms.idOf s ∈ st.2 := (h _).mpr ⟨x, hx, by simpa using hxi⟩
      simpa [List.elem_iff] using this
  cases hb : st.1.any fun x => ms.idOf x == ms.idOf s with
  | true =>
    rw [hb] at hmem
    have e1 : mergeLoopStep ms st s = (replaceFirstIfNewer ms st.1 s, st.2) := by
      simp only [mergeLoopStep, hmem]; rfl
    have e2 : mergeStep ms st.1 s = replaceFirstIfNewer ms st.1 s := by
      simp only [mergeStep, hb]; rfl
    refine ⟨by rw [e1, e2], ?_⟩
    intro i
    rw [e1]
    show i ∈ st.2 ↔ ∃ x ∈ replaceFirstIfNewer ms st.1 s, ms.idOf x = i
    rw [h i]
    constructor
    · rintro ⟨x, hx, hxi⟩
      have : ms.idOf x ∈ (replaceFirstIfNewer ms st.1 s).map ms.idOf := by
        rw [replaceFirst_map_id]
        exact List.mem_map.mpr ⟨x, hx, rfl⟩
      obtain ⟨y, hy, hyi⟩ := List.mem_map.mp this
      exact ⟨y, hy, hyi.trans hxi⟩
    · rintro ⟨x, hx, hxi⟩
      have : ms.idOf x ∈ st.1.map ms.idOf := by
        rw [← replaceFirst_map_id ms s]
        exact List.mem_map.mpr ⟨x, hx, rfl⟩
      obtain ⟨y, hy, hyi⟩ := List.mem_map.mp this
      exact ⟨y, hy, hyi.trans hxi⟩
  | false =>
    rw [hb] at hmem
    have e1 : mergeLoopStep ms st s = (st.1 ++ [s], st.2 ++ [ms.idOf s]) := by
      simp only [mergeLoopStep, hmem]; rfl
    have e2 : mergeStep ms st.1 s = st.1 ++ [s] := by
      simp only [mergeStep, hb]; rfl
    refine ⟨by rw [e1, e2], ?_⟩
    intro i
    rw [e1]
    show i ∈ st.2 ++ [ms.idOf s] ↔ ∃ x ∈ st.1 ++ [s], ms.idOf x = i
    simp only [List.mem_append, List.mem_singleton, h i]
    constructor
    · rintro (⟨x, hx, hxi⟩ | rfl)
      · exact ⟨x, Or.inl hx, hxi⟩
      · exact ⟨s, Or.inr rfl, rfl⟩
    · rintro ⟨x, hx, hxi⟩
      rcases hx with hx | hx
      · exact Or.inl ⟨x, hx, hxi⟩
      · subst hx
        exact Or.inr hxi.symm

theorem foldl_mergeLoopStep_eq (ms : MergeSpec α) :
    ∀ (ns : List α) (st : List α × List String), IdsInv ms st →
      (ns.foldl (mergeLoopStep ms) st).1 = ns.foldl (mergeStep ms) st.1 := by
  intro ns
  induction ns with
  | nil => intro st _; rfl
  | cons a rest ih =>
    intro st h
    obtain ⟨h1, h2⟩ := mergeLoopStep_eq ms st a h
    simp only [List.foldl_cons]
    rw [ih _ h2, h1]

/-- `mergeBy` is the plain fold of `mergeStep` over the incoming batch. -/
theorem mergeBy_eq_foldl (ms : MergeSpec α) (base ns : List α) :
    mergeBy ms base ns = ns.foldl (mergeStep ms) base := by
  refine foldl_mergeLoopStep_eq ms ns (base, base.map ms.idOf) ?_
  intro i
  simp [List.mem_map]

/-! ### Reasoning about the merge loop -/

/-- The record `findIndex`/`find` locates for a given id. -/
def firstWith (ms : MergeSpec α) (i : String) (l : List α) : Option α :=
  l.find? fun x => ms.idOf x == i

/-- The record with the id of `s` is present and `s` does not pass the
replacement test against it: merging `s` into `m` is then a no-op. -/
def NotNewer (ms : MergeSpec α) (s : α) (m : List α) : Prop :=
  ∃ t, firstWith ms (ms.idOf s) m = some t ∧
    ms.newer (ms.lmOf s) (ms.lmOf t) = false

theorem find?_append_left {p : α → Bool} {l l2 : List α} {t : α}
    (h : l.find? p = some t) : (l ++ l2).find? p = some t := by
  rw [List.find?_append, h]; rfl

theorem find?_append_none {p : α → Bool} {l l2 : List α}
    (h : l.find? p = none) : (l ++ l2).find? p = l2.find? p := by
  rw [List.find?_append, h, Option.none_or]

/-! Branch equations for `replaceFirstIfNewer` and id-keyed `find?`. -/

theorem replaceFirst_cons_tt (ms : MergeSpec α) {x s : α} {xs : List α}
    (hb : (ms.idOf x == ms.idOf s) = true)
    (hc : ms.newer (ms.lmOf s) (ms.lmOf x) = true) :
    replaceFirstIfNewer ms (x :: xs) s = s :: xs := by
  simp [replaceFirstIfNewer, hb, hc]

theorem replaceFirst_cons_tf (ms : MergeSpec α) {x s : α} {xs : List α}
    (hb : (ms.idOf x == ms.idOf s) = true)
    (hc : ms.newer (ms.lmOf s) (ms.lmOf x) = false) :
    replaceFirstIfNewer ms (x :: xs) s = x :: xs := by
  simp [replaceFirstIfNewer, hb, hc]

theorem replaceFirst_cons_f (ms : MergeSpec α) {x s : α} {xs : List α}
    (hb : (ms.idOf x == ms.idOf s) = false) :
    replaceFirstIfNewer ms (x :: xs) s = x :: replaceFirstIfNewer ms xs s := by
  simp [replaceFirstIfNewer, hb]

theorem find?_id_cons_pos (ms : MergeSpec α) {x : α} {i : String}
    (xs : List α) (hb : (ms.idOf x == i) = true) :
    List.find? (fun y => ms.idOf y == i) (x :: xs) = some x :=
  List.find?_cons_of_pos xs hb

theorem find?_id_cons_neg (ms : MergeSpec α) {x : α} {i : String}
    (xs : List α) (hb : (ms.idOf x == i) = false) :
    List.find? (fun y => ms.idOf y == i) (x :: xs) =
      List.find? (fun y => ms.idOf y == i) xs :=
  List.find?_cons_of_neg xs (by simp [hb])

/-- Replacing a record of a different id does not move the first record
with the id under scrutiny. -/
theorem replaceFirst_find?_other (ms : MergeSpec α) {s : α} {i : String}
    (hne : (ms.idOf s == i) = false) :
    ∀ l : List α, (replaceFirstIfNewer ms l s).find? (fun x => ms.idOf x == i) =
      l.find? fun x => ms.idOf x == i := by
  intro l
  induction l with
  | nil => rfl
  | cons x xs ih =>
    cases hb : ms.idOf x == ms.idOf s with
    | true =>
      have hx : ms.idOf x = ms.idOf s := by simpa using hb
      have hxi : (ms.idOf x == i) = false := by rw [hx]; exact hne
      cases hc : ms.newer (ms.lmOf s) (ms.lmOf x) with
      | true =>
        rw [replaceFirst_cons_tt ms hb hc, find?_id_cons_neg ms xs hne,
          find?_id_cons_neg ms xs hxi]
      | false =>
        rw [replaceFirst_cons_tf ms hb hc]
    | false =>
      rw [replaceFirst_cons_f ms hb]
      cases hxi : ms.idOf x == i with
      | true =>
        rw [find?_id_cons_pos ms _ hxi, find?_id_cons_pos ms xs hxi]
      | false =>
        rw [find?_id_cons_neg ms _ hxi, find?_id_cons_neg ms xs hxi, ih]

/-- Replacing at the id of `s` moves the first record with that id to `s`
exactly when the replacement test passes. -/
theorem replaceFirst_find?_same (ms : MergeSpec α) {s t : α} :
    ∀ l : List α, l.find? (fun x => ms.idOf x == ms.idOf s) = some t →
      (replaceFirstIfNewer ms l s).find? (fun x => ms.idOf x == ms.idOf s) =
        some (if ms.newer (ms.lmOf s) (ms.lmOf t) then s else t) := by
  intro l
  induction l with
  | nil => intro h; cases h
  | cons x xs ih =>
    intro h
    cases hb : ms.idOf x == ms.idOf s with
    | true =>
      rw [find?_id_cons_pos ms xs hb] at h
      obtain rfl : x = t := by injection h
      cases hc : ms.newer (ms.lmOf s) (ms.lmOf x) with
      | true =>
        rw [replaceFirst_cons_tt ms hb hc, if_pos rfl,
          find?_id_cons_pos ms xs (by simp)]
      | false =>
        rw [replaceFirst_cons_tf ms hb hc, if_neg (by simp),
          find?_id_cons_pos ms xs hb]
    | false =>
      rw [find?_id_cons_neg ms xs hb] at h
      rw [replaceFirst_cons_f ms hb, find?_id_cons_neg ms _ hb, ih h]

/-- When the first record with the id of `s` survives the replacement
test, `replaceFirstIfNewer` is the identity. -/
theorem replaceFirst_id (ms : MergeSpec α) {s t : α} :
    ∀ l : List α, l.find? (fun x => ms.idOf x == ms.idOf s) = some t →
      ms.newer (ms.lmOf s) (ms.lmOf t) = false →
      replaceFirstIfNewer ms l s = l := by
  intro l
  induction l with
  | nil => intro h; cases h
  | cons x xs ih =>
    intro h hn
    cases hb : ms.idOf x == ms.idOf s with
    | true =>
      rw [find?_id_cons_pos ms xs hb] at h
      obtain rfl : x = t := by injection h
      exact replaceFirst_cons_tf ms hb hn
    | false =>
      rw [find?_id_cons_neg ms xs hb] at h
      rw [replaceFirst_cons_f ms hb, ih h hn]

/-- After merging `s` itself, `s` is not newer than the record now stored
under its id (needs irreflexivity of the replacement test). -/
theorem mergeStep_notNewer_self (ms : MergeSpec α)
    (hirr : ∀ a, ms.newer a a = false) (m : List α) (s : α) :
    NotNewer ms s (mergeStep ms m s) := by
  cases hany : m.any (fun x => ms.idOf x == ms.idOf s) with
  | false =>
    have e : mergeStep ms m s = m ++ [s] := by
      simp only [mergeStep, hany]; rfl
    have hnone : m.find? (fun x => ms.idOf x == ms.idOf s) = none := by
      rw [List.find?_eq_none]
      intro x hx
      rw [List.any_eq_false] at hany
      exact hany x hx
    refine ⟨s, ?_, hirr _⟩
    rw [e]
    unfold firstWith
    rw [find?_append_none hnone]
    exact find?_id_cons_pos ms [] (by simp)
  | true =>
    have e : mergeStep ms m s = replaceFirstIfNewer ms m s := by
      simp only [mergeStep, hany]; rfl
    have hsome : ∃ t, m.find? (fun x => ms.idOf x == ms.idOf s) = some t := by
      rw [List.any_eq_true] at hany
      have := List.find?_isSome.mpr hany
      exact Option.isSome_iff_exists.mp this
    obtain ⟨t, ht⟩ := hsome
    rw [e]
    cases hc : ms.newer (ms.lmOf s) (ms.lmOf t) with
    | true =>
      refine ⟨s, ?_, hirr _⟩
      unfold firstWith
      rw [replaceFirst_find?_same ms m ht, hc, if_pos rfl]
    | false =>
      refine ⟨t, ?_, hc⟩
      unfold firstWith
      rw [replaceFirst_find?_same ms m ht, hc, if_neg (by simp)]

/-- `NotNewer` is preserved by merging any further record (needs the
composition property of the replacement test). -/
theorem mergeStep_preserves_notNewer (ms : MergeSpec α)
    (htr : ∀ a b o, ms.newer a o = false → ms.newer b o = true →
      ms.newer a b = false)
    {s : α} {m : List α} (h : NotNewer ms s m) (b : α) :
    NotNewer ms s (mergeStep ms m b) := by
  obtain ⟨t, ht, hn⟩ := h
  cases hany : m.any (fun x => ms.idOf x == ms.idOf b) with
  | false =>
    have e : mergeStep ms m b = m ++ [b] := by
      simp only [mergeStep, hany]; rfl
    exact ⟨t, by rw [e]; exact find?_append_left ht, hn⟩
  | true =>
    have e : mergeStep ms m b = replaceFirstIfNewer ms m b := by
      simp only [mergeStep, hany]; rfl
    rw [e]
    cases hid : ms.idOf b == ms.idOf s with
    | false =>
      exact ⟨t, by unfold firstWith; rw [replaceFirst_find?_other ms hid m]; exact ht, hn⟩
    | true =>
      have hbs : ms.idOf b = ms.idOf s := by simpa using hid
      have ht2 : m.find? (fun x => ms.idOf x == ms.idOf b) = some t := by
        unfold firstWith at ht
        rw [hbs]; exact ht
      have e2 := replaceFirst_find?_same ms m ht2
      cases hc : ms.newer (ms.lmOf b) (ms.lmOf t) with
      | true =>
        refine ⟨b, ?_, htr _ _ _ hn hc⟩
        unfold firstWith
        rw [← hbs, e2, hc, if_pos rfl]
      | false =>
        refine ⟨t, ?_, hn⟩
        unfold firstWith
        rw [← hbs, e2, hc, if_neg (by simp)]

theorem foldl_preserves_notNewer (ms : MergeSpec α)
    (htr : ∀ a b o, ms.newer a o = false → ms.newer b o = true →
      ms.newer a b = false) {s : α} :
    ∀ (ns : List α) (m : List α), NotNewer ms s m →
      NotNewer ms s (ns.foldl (mergeStep ms) m) := by
  intro ns
  induction ns with
  | nil => intro m h; exact h
  | cons a rest ih =>
    intro m h
    exact ih _ (mergeStep_preserves_notNewer ms htr h a)

/-- Every record of the merged batch is not newer than what the merged
collection stores under its id. -/
theorem all_notNewer (ms : MergeSpec α)
    (hirr : ∀ a, ms.newer a a = false)
    (htr : ∀ a b o, ms.newer a o = false → ms.newer b o = true →
      ms.newer a b = false) :
    ∀ (ns : List α) (m : List α) (s : α), s ∈ ns →
      NotNewer ms s (ns.foldl (mergeStep ms) m) := by
  intro ns
  induction ns with
  | nil => intro m s h; cases h
  | cons a rest ih =>
    intro m s hs
    rcases List.mem_cons.mp hs with rfl | hs
    · exact foldl_preserves_notNewer ms htr rest _
        (mergeStep_notNewer_self ms hirr m s)
    · exact ih _ s hs

/-- Merging a record that is not newer than its stored counterpart is a
no-op. -/
theorem mergeStep_id_of_notNewer (ms : MergeSpec α) {s : α} {m : List α}
    (h : NotNewer ms s m) : mergeStep ms m s = m := by
  obtain ⟨t, ht, hn⟩ := h
  unfold firstWith at ht
  have hany : m.any (fun x => ms.idOf x == ms.idOf s) = true := by
    rw [List.any_eq_true]
    refine ⟨t, List.mem_of_find?_eq_some ht, ?_⟩
    have := List.find?_some ht
    simpa using this
  have e : mergeStep ms m s = replaceFirstIfNewer ms m s := by
    simp only [mergeStep, hany]; rfl
  rw [e, replaceFirst_id ms m ht hn]

theorem foldl_fixed {f : List α → α → List α} {m : List α} :
    ∀ ns : List α, (∀ s ∈ ns, f m s = m) → ns.foldl f m = m := by
  intro ns
  induction ns with
  | nil => intro _; rfl
  | cons a rest ih =>
    intro h
    rw [List.foldl_cons, h a (by simp), ih fun s hs => h s (by simp [hs])]

/-- Idempotence of the merge loop, for any replacement test that is
irreflexive and composes (both concrete tests qualify). -/
theorem mergeBy_idem (ms : MergeSpec α)
    (hirr : ∀ a, ms.newer a a = false)
    (htr : ∀ a b o, ms.newer a o = false → ms.newer b o = true →
      ms.newer a b = false)
    (base ns : List α) :
    mergeBy ms (mergeBy ms base ns) ns = mergeBy ms base ns := by
  rw [mergeBy_eq_foldl, mergeBy_eq_foldl]
  exact foldl_fixed ns fun s hs =>
    mergeStep_id_of_notNewer ms (all_notNewer ms hirr htr ns base s hs)

/-! ### Id uniqueness -/

theorem mergeStep_nodup (ms : MergeSpec α) {m : List α}
    (h : (m.map ms.idOf).Nodup) (s : α) :
    ((mergeStep ms m s).map ms.idOf).Nodup := by
  cases hany : m.any (fun x => ms.idOf x == ms.idOf s) with
  | true =>
    have e : mergeStep ms m s = replaceFirstIfNewer ms m s := by
      simp only [mergeStep, hany]; rfl
    rw [e, replaceFirst_map_id]
    exact h
  | false =>
    have e : mergeStep ms m s = m ++ [s] := by
      simp only [mergeStep, hany]; rfl
    rw [e, List.map_append]
    rw [List.nodup_append]
    refine ⟨h, List.nodup_singleton _, ?_⟩
    intro i hi hi2
    simp only [List.map_cons, List.map_nil, List.mem_singleton] at hi2
    subst hi2
    obtain ⟨x, hx, hxi⟩ := List.mem_map.mp hi
    rw [List.any_eq_false] at hany
    exact hany x hx (by simp [hxi])

/-- The merge loop preserves id uniqueness. -/
theorem mergeBy_nodup (ms : MergeSpec α) (base ns : List α)
    (h : (base.map ms.idOf).Nodup) :
    ((mergeBy ms base ns).map ms.idOf).Nodup := by
  rw [mergeBy_eq_foldl]
  induction ns generalizing base with
  | nil => exact h
  | cons a rest ih =>
    rw [List.foldl_cons]
    exact ih _ (mergeStep_nodup ms h a)

/-! ### Per-record replacement behaviour -/

/-- On a base with unique ids, replacing at the id of `s` (held by the
base record `r`) either substitutes `s` for `r` in place or leaves the
base unchanged, according to the replacement test against `r`. -/
theorem replaceFirst_spec (ms : MergeSpec α) :
    ∀ {base : List α} {r s : α}, (base.map ms.idOf).Nodup →
      r ∈ base → ms.idOf r = ms.idOf s →
      replaceFirstIfNewer ms base s =
        if ms.newer (ms.lmOf s) (ms.lmOf r) then
          base.map fun x => if ms.idOf x == ms.idOf s then s else x
        else base := by
  intro base
  induction base with
  | nil => intro r s _ hr _; cases hr
  | cons x xs ih =>
    intro r s hnd hr hid
    have hndx : (xs.map ms.idOf).Nodup := by
      simp only [List.map_cons, List.nodup_cons] at hnd
      exact hnd.2
    have hxnotin : ms.idOf x ∉ xs.map ms.idOf := by
      simp only [List.map_cons, List.nodup_cons] at hnd
      exact hnd.1
    cases hb : ms.idOf x == ms.idOf s with
    | true =>
      have hx : ms.idOf x = ms.idOf s := by simpa using hb
      have hrx : r = x := by
        rcases List.mem_cons.mp hr with rfl | hmem
        · rfl
        · exfalso
          exact hxnotin (by
            rw [hx, ← hid]
            exact List.mem_map.mpr ⟨r, hmem, rfl⟩)
      subst hrx
      have hmapxs : (xs.map fun z => if ms.idOf z == ms.idOf s then s else z) = xs := by
        refine List.map_congr_left ?_ |>.trans (List.map_id xs)
        intro z hz
        have : (ms.idOf z == ms.idOf s) = false := by
          cases hzb : ms.idOf z == ms.idOf s with
          | false => rfl
          | true =>
            exfalso
            have : ms.idOf z = ms.idOf s := by simpa using hzb
            exact hxnotin (by
              rw [hx, ← this]
              exact List.mem_map.mpr ⟨z, hz, rfl⟩)
        rw [this]; rfl
      cases hc : ms.newer (ms.lmOf s) (ms.lmOf r) with
      | true =>
        rw [replaceFirst_cons_tt ms hb hc, if_pos rfl, List.map_cons,
          hmapxs, if_pos hb]
      | false =>
        rw [replaceFirst_cons_tf ms hb hc, if_neg (by simp)]
    | false =>
      have hxs : ms.idOf x ≠ ms.idOf s := by simpa using hb
      have hrxs : r ∈ xs := by
        rcases List.mem_cons.mp hr with rfl | hmem
        · exact absurd hid hxs
        · exact hmem
      rw [replaceFirst_cons_f ms hb, ih hndx hrxs hid]
      cases hc : ms.newer (ms.lmOf s) (ms.lmOf r) with
      | true =>
        rw [if_pos rfl, if_pos rfl, List.map_cons, if_neg (by simp [hb])]
      | false =>
        rw [if_neg (by simp), if_neg (by simp)]

/-- Merging a single record whose id is already held by base record `r`:
replace-if-newer against `r`, in place. -/
theorem mergeBy_single_spec (ms : MergeSpec α) {base : List α} {r s : α}
    (hnd : (base.map ms.idOf).Nodup) (hr : r ∈ base)
    (hid : ms.idOf r = ms.idOf s) :
    mergeBy ms base [s] =
      if ms.newer (ms.lmOf s) (ms.lmOf r) then
        base.map fun x => if ms.idOf x == ms.idOf s then s else x
      else base := by
  rw [mergeBy_eq_foldl]
  have hany : base.any (fun x => ms.idOf x == ms.idOf s) = true := by
    rw [List.any_eq_true]
    exact ⟨r, hr, by simp [hid]⟩
  show mergeStep ms base s = _
  have e2 : mergeStep ms base s = replaceFirstIfNewer ms base s := by
    simp only [mergeStep, hany]; rfl
  rw [e2, replaceFirst_spec ms hnd hr hid]

/-! ### The two replacement tests are irreflexive and compose -/

theorem jsStrLt_irrefl : ∀ l : List Char, jsStrLt l l = false := by
  intro l
  induction l with
  | nil => rfl
  | cons a as ih =>
    show (if a.toNat < a.toNat then true
      else if a.toNat < a.toNat then false else jsStrLt as as) = false
    rw [if_neg (Nat.lt_irrefl _), if_neg (Nat.lt_irrefl _), ih]

theorem jsStrLt_trans :
    ∀ x y z : List Char, jsStrLt x y = true → jsStrLt y z = true →
      jsStrLt x z = true := by
  intro x
  induction x with
  | nil =>
    intro y z hxy hyz
    cases y with
    | nil => cases hxy
    | cons b bs =>
      cases z with
      | nil => cases hyz
      | cons c cs => rfl
  | cons a as ih =>
    intro y z hxy hyz
    cases y with
    | nil => cases hxy
    | cons b bs =>
      cases z with
      | nil => cases hyz
      | cons c cs =>
        have hxy2 : (if a.toNat < b.toNat then true
            else if b.toNat < a.toNat then false else jsStrLt as bs) = true := hxy
        have hyz2 : (if b.toNat < c.toNat then true
            else if c.toNat < b.toNat then false else jsStrLt bs cs) = true := hyz
        show (if a.toNat < c.toNat then true
          else if c.toNat < a.toNat then false else jsStrLt as cs) = true
        rcases Nat.lt_trichotomy a.toNat b.toNat with hab | hab | hab
        · rcases Nat.lt_trichotomy b.toNat c.toNat with hbc | hbc | hbc
          · rw [if_pos (Nat.lt_trans hab hbc)]
          · rw [if_pos (by rw [← hbc]; exact hab)]
          · rw [if_neg (Nat.lt_asymm hbc), if_pos hbc] at hyz2
            cases hyz2
        · rw [if_neg (by rw [hab]; exact Nat.lt_irrefl _),
            if_neg (by rw [hab]; exact Nat.lt_irrefl _)] at hxy2
          rcases Nat.lt_trichotomy b.toNat c.toNat with hbc | hbc | hbc
          · rw [if_pos (by rw [hab]; exact hbc)]
          · have hac : a.toNat = c.toNat := hab.trans hbc
            rw [if_neg (by rw [hbc]; exact Nat.lt_irrefl _),
              if_neg (by rw [hbc]; exact Nat.lt_irrefl _)] at hyz2
            rw [if_neg (by rw [hac]; exact Nat.lt_irrefl _),
              if_neg (by rw [hac]; exact Nat.lt_irrefl _)]
            exact ih bs cs hxy2 hyz2
          · rw [if_neg (Nat.lt_asymm hbc), if_pos hbc] at hyz2
            cases hyz2
        · rw [if_neg (Nat.lt_asymm hab), if_pos hab] at hxy2
          cases hxy2

theorem strNewer_irrefl (a : String) : strNewer a a = false :=
  jsStrLt_irrefl a.data

theorem strNewer_comp (a b o : String) (h1 : strNewer a o = false)
    (h2 : strNewer b o = true) : strNewer a b = false := by
  cases hba : strNewer a b with
  | false => rfl
  | true =>
    have h1u : jsStrLt o.data a.data = false := h1
    have := jsStrLt_trans o.data b.data a.data h2 hba
    rw [h1u] at this
    cases this

theorem dateNewer_irrefl (a : String) : dateNewer a a = false := by
  unfold dateNewer jsGtM
  cases jsDateMillis a with
  | none => rfl
  | some x => simp

theorem dateNewer_comp (a b o : String) (h1 : dateNewer a o = false)
    (h2 : dateNewer b o = true) : dateNewer a b = false := by
  unfold dateNewer jsGtM at h1 h2 ⊢
  cases ha : jsDateMillis a with
  | none => cases jsDateMillis b <;> rfl
  | some xa =>
    cases hb2 : jsDateMillis b with
    | none => rfl
    | some xb =>
      rw [ha] at h1
      rw [hb2] at h2
      cases ho : jsDateMillis o with
      | none => rw [ho] at h2; cases h2
      | some xo =>
        rw [ho] at h1 h2
        have hp2 : xb > xo := of_decide_eq_true h2
        have hp1 : ¬ xa > xo := of_decide_eq_false h1
        exact decide_eq_false fun hab => hp1 (lt_trans hp2 hab)

/-! ## Query engine (`ScriptUpdateManager`) -/

/-- `ScriptUpdateManager.search`: lowercase the query once, keep the
scripts whose lowercased title, description, or any lowercased tag
contains it. -/
def search (query : String) (scripts : List Script) : List Script :=
  let lowerQuery := jsToLower query
  scripts.filter fun s =>
    strIncludes (jsToLower s.title) lowerQuery ||
    strIncludes (jsToLower s.description) lowerQuery ||
    s.tags.any fun t => strIncludes (jsToLower t) lowerQuery

/-- Sort key of `getRecent`: `new Date(s.lastModified)`. -/
def recentKey (s : Script) : Option Int := jsDateMillis s.lastModified

/-- Stable insertion of one script into a recency-descending list: the
new script moves ahead exactly of the scripts it strictly beats under the
comparator `new Date(b.lastModified) - new Date(a.lastModified)` (a tie
or an invalid date never moves it forward — NaN comparator semantics). -/
def insertRecent (x : Script) : List Script → List Script
  | [] => [x]
  | y :: ys =>
    if jsGtM (recentKey x) (recentKey y) then x :: y :: ys
    else y :: insertRecent x ys

/-- The sort of `getRecent`: JavaScript `Array.prototype.sort` (stable
per ES2019) under the comparator above, modeled as a stable insertion
sort — extensionally the unique stable descending order whenever the
comparator is consistent, i.e. whenever the `lastModified` values parse. -/
def sortByRecency (l : List Script) : List Script :=
  l.foldl (fun acc x => insertRecent x acc) []

/-- `ScriptUpdateManager.getRecent`: spread-copy, stable sort by
`lastModified` descending, truncate to `limit`.  The spread copy means
the underlying collection is untouched, which the embedding renders by
being a pure function of it. -/
def getRecent (limit : Nat) (scripts : List Script) : List Script :=
  (sortByRecency scripts).take limit

/-! ### Properties of the recency sort -/

theorem jsGtM_irrefl (a : Option Int) : jsGtM a a = false := by
  cases a with
  | none => rfl
  | some x => simp [jsGtM]

theorem jsGtM_true_elim {a b : Option Int} (h : jsGtM a b = true) :
    ∃ x y, a = some x ∧ b = some y ∧ x > y := by
  cases a with
  | none => cases b <;> cases h
  | some x =>
    cases b with
    | none => cases h
    | some y => exact ⟨x, y, rfl, rfl, of_decide_eq_true h⟩

theorem jsGtM_comp {a b o : Option Int} (h1 : jsGtM a o = false)
    (h2 : jsGtM b o = true) : jsGtM a b = false := by
  obtain ⟨xb, xo, rfl, rfl, hbo⟩ := jsGtM_true_elim h2
  cases a with
  | none => rfl
  | some xa =>
    have h1p : ¬ xa > xo := of_decide_eq_false h1
    exact decide_eq_false fun hab => h1p (lt_trans hbo hab)

/-- The order `getRecent` sorts into: `a` may stay ahead of `b` when the
comparator does not strictly prefer `b` (descending by parsed
`lastModified`; comparisons against an invalid date never reorder). -/
def RecAhead (a b : Script) : Prop :=
  jsGtM (recentKey b) (recentKey a) = false

theorem insertRecent_perm (x : Script) :
    ∀ l : List Script, (insertRecent x l).Perm (x :: l) := by
  intro l
  induction l with
  | nil => exact List.Perm.refl _
  | cons y ys ih =>
    cases hc : jsGtM (recentKey x) (recentKey y) with
    | true =>
      rw [insertRecent, if_pos hc]
    | false =>
      rw [insertRecent, if_neg (by simp [hc])]
      exact (ih.cons y).trans (List.Perm.swap x y ys)

theorem sortByRecency_perm : ∀ l : List Script, (sortByRecency l).Perm l := by
  intro l
  induction l using List.reverseRecOn with
  | nil => exact List.Perm.refl _
  | append_singleton l a ih =>
    have e : sortByRecency (l ++ [a]) = insertRecent a (sortByRecency l) := by
      unfold sortByRecency
      rw [List.foldl_append]
      rfl
    rw [e]
    refine (insertRecent_perm a _).trans ?_
    refine (ih.cons a).trans ?_
    exact (List.perm_append_singleton a l).symm

theorem insertRecent_sorted (x : Script) :
    ∀ {l : List Script}, l.Pairwise RecAhead →
      (insertRecent x l).Pairwise RecAhead := by
  intro l
  induction l with
  | nil => intro _; simp [insertRecent, List.pairwise_cons]
  | cons y ys ih =>
    intro h
    rw [List.pairwise_cons] at h
    obtain ⟨hy, hys⟩ := h
    cases hc : jsGtM (recentKey x) (recentKey y) with
    | true =>
      rw [insertRecent, if_pos hc]
      rw [List.pairwise_cons]
      constructor
      · intro z hz
        rcases List.mem_cons.mp hz with rfl | hz
        · obtain ⟨kx, ky, hkx, hky, hgt⟩ := jsGtM_true_elim hc
          unfold RecAhead
          rw [hky, hkx]
          exact decide_eq_false fun hyx => lt_asymm hgt hyx
        · exact jsGtM_comp (hy z hz) hc
      · rw [List.pairwise_cons]
        exact ⟨hy, hys⟩
    | false =>
      rw [insertRecent, if_neg (by simp [hc])]
      rw [List.pairwise_cons]
      constructor
      · intro z hz
        have hz2 : z ∈ x :: ys := (insertRecent_perm x ys).mem_iff.mp hz
        rcases List.mem_cons.mp hz2 with rfl | hz2
        · exact hc
        · exact hy z hz2
      · exact ih hys

theorem sortByRecency_sorted (l : List Script) :
    (sortByRecency l).Pairwise RecAhead := by
  unfold sortByRecency
  have key : ∀ (l2 : List Script) (acc : List Script),
      acc.Pairwise RecAhead →
      (l2.foldl (fun acc x => insertRecent x acc) acc).Pairwise RecAhead := by
    intro l2
    induction l2 with
    | nil => intro acc h; exact h
    | cons a rest ih =>
      intro acc h
      exact ih _ (insertRecent_sorted a h)
  exact key l [] (List.Pairwise.nil)

theorem insertRecent_filter_ne {x : Script} {k : Int}
    (hx : (recentKey x == some k) = false) :
    ∀ l : List Script,
      (insertRecent x l).filter (fun s => recentKey s == some k) =
        l.filter fun s => recentKey s == some k := by
  intro l
  induction l with
  | nil => simp [insertRecent, List.filter_cons, hx]
  | cons y ys ih =>
    cases hc : jsGtM (recentKey x) (recentKey y) with
    | true =>
      rw [insertRecent, if_pos hc]
      simp [List.filter_cons, hx]
    | false =>
      rw [insertRecent, if_neg (by simp [hc])]
      simp [List.filter_cons, ih]

theorem insertRecent_filter_eq {x : Script} {k : Int}
    (hx : (recentKey x == some k) = true) :
    ∀ {l : List Script}, l.Pairwise RecAhead →
      (insertRecent x l).filter (fun s => recentKey s == some k) =
        (l.filter fun s => recentKey s == some k) ++ [x] := by
  have hxk : recentKey x = some k := by simpa using hx
  intro l
  induction l with
  | nil => simp [insertRecent, List.filter_cons, hx]
  | cons y ys ih =>
    intro h
    rw [List.pairwise_cons] at h
    obtain ⟨hy, hys⟩ := h
    cases hc : jsGtM (recentKey x) (recentKey y) with
    | true =>
      rw [insertRecent, if_pos hc]
      obtain ⟨kx, ky, hkx, hky, hgt⟩ := jsGtM_true_elim hc
      have hkxk : kx = k := by
        rw [hxk] at hkx
        injection hkx with h
        exact h.symm
      subst hkxk
      have hnone : (y :: ys).filter (fun s => recentKey s == some kx) = [] := by
        rw [List.filter_eq_nil_iff]
        intro z hz
        rcases List.mem_cons.mp hz with rfl | hz
        · rw [hky]
          simp only [beq_iff_eq, Option.some.injEq]
          exact fun hkk => absurd hgt (by rw [hkk]; exact lt_irrefl _)
        · have hzy : jsGtM (recentKey z) (recentKey y) = false := hy z hz
          rw [hky] at hzy
          intro hzk
          have hzk2 : recentKey z = some kx := by simpa using hzk
          rw [hzk2] at hzy
          have : decide (kx > ky) = false := hzy
          exact absurd hgt (of_decide_eq_false this)
      rw [List.filter_cons_of_pos (by simpa using hx), hnone]
      rfl
    | false =>
      rw [insertRecent, if_neg (by simp [hc])]
      rw [List.filter_cons, List.filter_cons]
      cases hpy : recentKey y == some k with
      | true =>
        rw [if_pos rfl, if_pos rfl, ih hys, List.cons_append]
      | false =>
        rw [if_neg (by simp), if_neg (by simp), ih hys]

theorem sortByRecency_stable (l : List Script) (k : Int) :
    (sortByRecency l).filter (fun s => recentKey s == some k) =
      l.filter fun s => recentKey s == some k := by
  induction l using List.reverseRecOn with
  | nil => rfl
  | append_singleton l a ih =>
    have e : sortByRecency (l ++ [a]) = insertRecent a (sortByRecency l) := by
      unfold sortByRecency
      rw [List.foldl_append]
      rfl
    rw [e, List.filter_append]
    cases hpa : recentKey a == some k with
    | true =>
      rw [insertRecent_filter_eq hpa (sortByRecency_sorted l), ih,
        List.filter_cons_of_pos (by simpa using hpa)]
      rfl
    | false =>
      rw [insertRecent_filter_ne hpa, ih,
        List.filter_cons_of_neg (by simp [hpa])]
      simp

/-! ## Collection store (cache and update, `ScriptUpdateManager`) -/

/-- Parsed content of the `localStorage` cache entry:
`{ scripts, timestamp }`. -/
structure CacheData where
  scripts : List Script
  timestamp : Int
deriving DecidableEq

/-- The mutable state `update`/`loadFromCache`/`saveToCache` touch.
`storage = none` models an environment without `localStorage` (Node);
`storage = some entry` models a browser, with `entry` the optional cache
blob under the cache key. -/
structure ManagerState where
  scripts : List Script
  lastUpdate : Option String
  storage : Option (Option CacheData)
deriving DecidableEq

/-- `ScriptUpdateManager.loadFromCache` at current time `now` with the
configured `cacheTTL`: without `localStorage` or without a cache entry it
returns `false` and changes nothing; a fresh entry (age strictly below
the TTL) is merged into the in-memory scripts and `true` returned; a
stale entry falls through to `false`, untouched and undeleted. -/
def loadFromCache (now ttl : Int) (st : ManagerState) : Bool × ManagerState :=
  match st.storage with
  | none => (false, st)
  | some none => (false, st)
  | some (some cached) =>
    if now - cached.timestamp < ttl then
      (true, { st with scripts := mergeScriptsUM st.scripts cached.scripts })
    else (false, st)

/-- `ScriptUpdateManager.saveToCache` at current time `now`: a no-op
without `localStorage`, otherwise overwrites the cache entry with the
current scripts and timestamp. -/
def saveToCache (now : Int) (st : ManagerState) : ManagerState :=
  match st.storage with
  | none => st
  | some _ => { st with storage := some (some ⟨st.scripts, now⟩) }

/-- A registered update callback; it may throw. -/
def Callback : Type := List Script → Option String → Except String Unit

/-- `ScriptUpdateManager.notifyUpdate`: every callback is invoked with
the current scripts and timestamp; a throwing callback is caught (its
outcome recorded here) and the loop continues. -/
def notifyUpdate (callbacks : List Callback) (scripts : List Script)
    (lastUpdate : Option String) : List (Except String Unit) :=
  callbacks.map fun cb => cb scripts lastUpdate

/-- `ScriptUpdateManager.update` at current time (`nowIso` for the ISO
`lastUpdate` string, `nowMs` for the cache timestamp), with `fetchResp`
the transport outcome of the GitHub search: fetch (which never throws),
merge only when the fetch produced at least one script, refresh
`lastUpdate`, save the cache, notify every callback, and return the
scripts.  Result: (returned scripts, final state, callback outcomes). -/
def update (callbacks : List Callback) (nowIso : String) (nowMs : Int)
    (enable : Bool) (fetchResp : FetchResponse) (st : ManagerState) :
    List Script × ManagerState × List (Except String Unit) :=
  let githubScripts := (fetchFromGitHubUM enable fetchResp).1
  let scripts2 :=
    if githubScripts.length > 0 then mergeScriptsUM st.scripts githubScripts
    else st.scripts
  let st1 : ManagerState :=
    { st with scripts := scripts2, lastUpdate := some nowIso }
  let st2 := saveToCache nowMs st1
  let results := notifyUpdate callbacks scripts2 (some nowIso)
  (scripts2, st2, results)

/-! ## Deduplication lemmas -/

theorem dedupGo_not_seen :
    ∀ (rs : List Repo) (seen : List Int) (r : Repo),
      r ∈ dedupGo seen rs → r.id ∉ seen := by
  intro rs
  induction rs with
  | nil => intro seen r h; cases h
  | cons x xs ih =>
    intro seen r h
    by_cases hx : x.id ∈ seen
    · rw [dedupGo, if_pos (by simpa [List.elem_iff] using hx)] at h
      exact ih seen r h
    · rw [dedupGo, if_neg (by simpa [List.elem_iff] using hx)] at h
      rcases List.mem_cons.mp h with rfl | h
      · exact hx
      · intro hr
        exact ih _ r h (by simp [hr])

theorem dedupGo_first :
    ∀ (rs : List Repo) (seen : List Int) (r : Repo),
      r ∈ dedupGo seen rs →
      rs.find? (fun x => x.id == r.id) = some r := by
  intro rs
  induction rs with
  | nil => intro seen r h; cases h
  | cons x xs ih =>
    intro seen r h
    by_cases hx : x.id ∈ seen
    · rw [dedupGo, if_pos (by simpa [List.elem_iff] using hx)] at h
      have hrs : r.id ∉ seen := dedupGo_not_seen xs seen r h
      have hne : (x.id == r.id) = false := by
        simp only [beq_eq_false_iff_ne, ne_eq]
        intro he
        exact hrs (he ▸ hx)
      rw [List.find?_cons_of_neg _ (by simp [hne]), ih seen r h]
    · rw [dedupGo, if_neg (by simpa [List.elem_iff] using hx)] at h
      rcases List.mem_cons.mp h with rfl | h
      · rw [List.find?_cons_of_pos _ (by simp)]
      · have hrs : r.id ∉ x.id :: seen := dedupGo_not_seen xs _ r h
        have hne : (x.id == r.id) = false := by
          simp only [beq_eq_false_iff_ne, ne_eq]
          intro he
          exact hrs (by simp [he])
        rw [List.find?_cons_of_neg _ (by simp [hne]), ih _ r h]

theorem dedupGo_nodup :
    ∀ (rs : List Repo) (seen : List Int),
      ((dedupGo seen rs).map Repo.id).Nodup := by
  intro rs
  induction rs with
  | nil => intro seen; exact List.nodup_nil
  | cons x xs ih =>
    intro seen
    by_cases hx : x.id ∈ seen
    · rw [dedupGo, if_pos (by simpa [List.elem_iff] using hx)]
      exact ih seen
    · rw [dedupGo, if_neg (by simpa [List.elem_iff] using hx)]
      rw [List.map_cons, List.nodup_cons]
      refine ⟨?_, ih _⟩
      intro hmem
      obtain ⟨r, hr, hid⟩ := List.mem_map.mp hmem
      exact dedupGo_not_seen xs _ r hr (by simp [hid])

theorem dedupGo_covers :
    ∀ (rs : List Repo) (seen : List Int) (z : Repo), z ∈ rs →
      z.id ∈ seen ∨ ∃ r ∈ dedupGo seen rs, r.id = z.id := by
  intro rs
  induction rs with
  | nil => intro seen z h; cases h
  | cons x xs ih =>
    intro seen z hz
    by_cases hx : x.id ∈ seen
    · rw [dedupGo, if_pos (by simpa [List.elem_iff] using hx)]
      rcases List.mem_cons.mp hz with rfl | hz
      · exact Or.inl hx
      · exact ih seen z hz
    · rw [dedupGo, if_neg (by simpa [List.elem_iff] using hx)]
      rcases List.mem_cons.mp hz with rfl | hz
      · exact Or.inr ⟨z, by simp, rfl⟩
      · rcases ih (x.id :: seen) z hz with hs | ⟨r, hr, hid⟩
        · rcases List.mem_cons.mp hs with he | hs
          · exact Or.inr ⟨x, by simp, he.symm⟩
          · exact Or.inl hs
        · exact Or.inr ⟨r, by simp [hr], hid⟩

/-! ## The update-feed query loop -/

theorem updateFeedFetch_go :
    ∀ (resps : List FetchResponse) (acc : List Repo × List LogEntry),
      resps.foldl
        (fun acc resp =>
          match searchReposUF resp with
          | .ok repos => (acc.1 ++ repos.map normalizeRepo, acc.2)
          | .error e =>
              (acc.1, acc.2 ++ [⟨.error, "  Error with query: " ++ e⟩]))
        acc =
      (acc.1 ++
        (resps.map fun resp =>
          match searchReposUF resp with
          | .ok repos => repos.map normalizeRepo
          | .error _ => []).flatten,
       acc.2 ++
        resps.filterMap fun resp =>
          match searchReposUF resp with
          | .ok _ => none
          | .error e => some ⟨.error, "  Error with query: " ++ e⟩) := by
  intro resps
  induction resps with
  | nil => intro acc; simp
  | cons resp rest ih =>
    intro acc
    rw [List.foldl_cons]
    cases hr : searchReposUF resp with
    | ok repos =>
      rw [List.map_cons, List.filterMap_cons]
      simp only [hr]
      rw [ih]
      simp [List.flatten_cons, List.append_assoc]
    | error e =>
      rw [List.map_cons, List.filterMap_cons]
      simp only [hr]
      rw [ih]
      simp [List.flatten_cons, List.append_assoc]

/-- The records returned by the query loop are exactly the concatenation,
in query order, of the normalized items of the successful queries, and
the log gets exactly one error entry per failed query. -/
theorem updateFeedFetch_eq (resps : List FetchResponse) :
    updateFeedFetch resps =
      ((resps.map fun resp =>
          match searchReposUF resp with
          | .ok repos => repos.map normalizeRepo
          | .error _ => []).flatten,
       resps.filterMap fun resp =>
          match searchReposUF resp with
          | .ok _ => none
          | .error e => some ⟨.error, "  Error with query: " ++ e⟩) := by
  unfold updateFeedFetch
  rw [updateFeedFetch_go resps ([], [])]
  simp

/-! ## Concrete fixtures for witnesses and counterexamples -/

/-- A canonical script record with the given id, `lastModified` and
title. -/
def sampleScript (i lm title : String) : Script :=
  { id := i, title := title, category := "GitHub Repository",
    description := "No description available",
    tags := ["github", "repository"], difficulty := "varies",
    dateAdded := "2024-01-01", lastModified := lm, source := "github",
    url := "https://example.com", stars := 1, owner := "octocat" }

/-- A build-script record with the given id, `lastModified` and title. -/
def sampleBScript (i lm title : String) : BScript :=
  { id := i, title := title, category := "GitHub Repository",
    description := "No description available",
    tags := ["github", "repository"], difficulty := "varies",
    dateAdded := "2024-01-01", lastModified := lm, source := "github",
    url := "https://example.com", stars := 1, forks := 0,
    owner := "octocat" }

/-- Existing record: 03:00 UTC. -/
def recStrOld : Script := sampleScript "a" "2024-01-01T03:00:00Z" "old"

/-- Incoming record with the same id: 02:00 UTC (one hour older), but
written with a +10:00 offset, which makes it the lexicographically larger
string. -/
def recStrNew : Script := sampleScript "a" "2024-01-01T12:00:00+10:00" "new"

/-- Existing build record. -/
def recB1 : BScript := sampleBScript "a" "2024-01-01T03:00:00Z" "old"

/-- Incoming build record, same id, one day newer. -/
def recB2 : BScript := sampleBScript "a" "2024-01-02T03:00:00Z" "new"

/-- Two scripts with distinct ids. -/
def recU1 : Script := sampleScript "a" "2024-01-01T00:00:00Z" "one"

def recU2 : Script := sampleScript "b" "2024-01-02T00:00:00Z" "two"

/-- The three records of the stable-sort scenario: the second and third
share a `lastModified`. -/
def recR1 : Script := sampleScript "r1" "2024-01-01" "first"

def recR2 : Script := sampleScript "r2" "2024-01-03" "second"

def recR3 : Script := sampleScript "r3" "2024-01-03" "third"

/-- A raw upstream repository with `n` chosen topics. -/
def sampleRaw (n : Int) (nm : String) (topics : Option (List String)) : RawRepo :=
  { id := n, name := nm, full_name := "octocat/" ++ nm,
    html_url := "https://github.com/octocat/" ++ nm,
    clone_url := "https://github.com/octocat/" ++ nm ++ ".git",
    description := some "a library", stargazers_count := 5,
    forks_count := 1, language := some "AutoHotkey", topics := topics,
    updated_at := "2024-05-01T00:00:00Z",
    created_at := "2024-01-01T00:00:00Z",
    pushed_at := "2024-05-01T00:00:00Z",
    owner := ⟨"octocat", "https://example.com/a.png",
      "https://github.com/octocat"⟩,
    default_branch := some "main", open_issues_count := 0,
    license_spdx := some "MIT", archived := false, fork := false }

def rawQ1 : RawRepo := sampleRaw 101 "lib-one" (some ["ahk"])

def rawQ3 : RawRepo := sampleRaw 103 "lib-three" (some ["ahk", "gui"])

/-- Seven topics: together with the two provenance tags that makes nine. -/
def rawManyTopics : RawRepo :=
  sampleRaw 104 "lib-many"
    (some ["t1", "t2", "t3", "t4", "t5", "t6", "t7"])

def rawTwoTopics : RawRepo := sampleRaw 105 "lib-two" (some ["t1", "t2"])

/-- A normalized feed record with the given id, name and update time. -/
def sampleRepo (n : Int) (nm lm : String) : Repo :=
  { id := n, name := nm, full_name := "octocat/" ++ nm,
    html_url := "https://github.com/octocat/" ++ nm,
    description := "a library", stargazers_count := 5, forks_count := 1,
    language := "AutoHotkey", topics := ["ahk"], updated_at := lm,
    created_at := "2024-01-01T00:00:00Z",
    pushed_at := lm,
    owner := ⟨"octocat", "https://example.com/a.png",
      "https://github.com/octocat"⟩,
    default_branch := some "main", open_issues_count := 0,
    license := some "MIT", is_archived := false, is_fork := false }

/-- First (older) instance of id 7 in the fetched batch. -/
def repoDupOld : Repo := sampleRepo 7 "dup-old" "2024-01-01T00:00:00Z"

/-- Second (newer) instance of id 7 in the fetched batch. -/
def repoDupNew : Repo := sampleRepo 7 "dup-new" "2024-03-01T00:00:00Z"

/-- Transport outcomes for three queries: query 2 is rate limited. -/
def respsRateLimited : List FetchResponse :=
  [.ok ⟨some [rawQ1]⟩, .httpStatus 403, .ok ⟨some [rawQ3]⟩]

/-- A state holding a stale cache entry. -/
def stStale : ManagerState :=
  { scripts := [recU1], lastUpdate := some "2024-01-05T00:00:00Z",
    storage := some (some ⟨[recU2], 1000⟩) }

/-- A browser state with storage present but no cache entry yet. -/
def stEmptyCache : ManagerState :=
  { scripts := [recU1], lastUpdate := none, storage := some none }

/-- Two callbacks: the first throws, the second succeeds. -/
def cbsDemo : List Callback :=
  [fun _ _ => Except.error "boom", fun _ _ => Except.ok ()]

/-! ## Claims -/

/-- Claim C1, counterexample.  The claim states that both merge
implementations compare `lastModified` as timestamps, retaining the
existing record on an older or equal incoming timestamp.  In
`ScriptUpdateManager.mergeScripts` the comparison is a raw string
comparison: an incoming record whose timestamp is one hour older, but
whose ISO rendering (offset +10:00) is lexicographically larger,
replaces the existing record. -/
theorem claim1_counterexample :
    mergeScriptsUM [recStrOld] [recStrNew] = [recStrNew] ∧
    jsDateMillis recStrNew.lastModified = some 1704074400000 ∧
    jsDateMillis recStrOld.lastModified = some 1704078000000 ∧
    (1704074400000 : Int) < 1704078000000 ∧
    recStrNew ≠ recStrOld := by
  refine ⟨?_, by decide, by decide, by decide, by decide⟩
  decide

/-- Claim C1, amended.  The merge of `build.js` does compare the two
values as timestamps (`new Date(...)`), replacing only on strictly
newer and keeping the existing record on ties or older; the merge of the
browser `ScriptUpdateManager` compares the raw `lastModified` strings
lexicographically, which coincides with timestamp order only when both
values share a uniform fixed-offset ISO rendering. -/
theorem claim1_merge_freshness :
    (∀ (base : List BScript) (s r : BScript),
      (base.map BScript.id).Nodup → r ∈ base → r.id = s.id →
      mergeScriptsBuild base [s] =
        if dateNewer s.lastModified r.lastModified then
          base.map fun x => if x.id == s.id then s else x
        else base)
    ∧ (∀ a b x y, jsDateMillis a = some x → jsDateMillis b = some y →
        (dateNewer a b = true ↔ x > y))
    ∧ (∀ (base : List Script) (s r : Script),
      (base.map Script.id).Nodup → r ∈ base → r.id = s.id →
      mergeScriptsUM base [s] =
        if strNewer s.lastModified r.lastModified then
          base.map fun x => if x.id == s.id then s else x
        else base)
    ∧ (∀ a b : String, strNewer a b = jsStrLt b.data a.data) := by
  refine ⟨?_, ?_, ?_, ?_⟩
  · intro base s r hnd hr hid
    exact mergeBy_single_spec ⟨BScript.id, BScript.lastModified, dateNewer⟩
      hnd hr hid
  · intro a b x y hx hy
    unfold dateNewer jsGtM
    rw [hx, hy]
    simp
  · intro base s r hnd hr hid
    exact mergeBy_single_spec ⟨Script.id, Script.lastModified, strNewer⟩
      hnd hr hid
  · intro a b
    rfl

/-- Claim C1, witness: a one-day-newer incoming build record replaces the
existing one, and the comparison agrees with the parsed timestamps. -/
theorem claim1_witness :
    mergeScriptsBuild [recB1] [recB2] = [recB2] ∧
    (dateNewer recB2.lastModified recB1.lastModified = true ↔
      (1704164400000 : Int) > 1704078000000) := by
  constructor
  · have h := claim1_merge_freshness.1 [recB1] recB2 recB1
      (by decide) (by decide) (by decide)
    rw [h]
    decide
  · exact claim1_merge_freshness.2.1 recB2.lastModified recB1.lastModified
      1704164400000 1704078000000 (by decide) (by decide)

/-- Claim C2: merge is idempotent — re-merging the same batch into the
result of the first merge changes no record, for both implementations
(any base, any batch). -/
theorem claim2_merge_idempotent :
    ∀ (baseS batchS : List Script) (baseB batchB : List BScript),
      mergeScriptsUM (mergeScriptsUM baseS batchS) batchS =
        mergeScriptsUM baseS batchS ∧
      mergeScriptsBuild (mergeScriptsBuild baseB batchB) batchB =
        mergeScriptsBuild baseB batchB := by
  intro baseS batchS baseB batchB
  constructor
  · exact mergeBy_idem ⟨Script.id, Script.lastModified, strNewer⟩
      strNewer_irrefl strNewer_comp baseS batchS
  · exact mergeBy_idem ⟨BScript.id, BScript.lastModified, dateNewer⟩
      dateNewer_irrefl dateNewer_comp baseB batchB

/-- Claim C3: id uniqueness is an invariant of merge — a base collection
with pairwise distinct ids yields a merged collection with pairwise
distinct ids, for both implementations. -/
theorem claim3_id_unique :
    (∀ base batch : List Script, (base.map Script.id).Nodup →
      ((mergeScriptsUM base batch).map Script.id).Nodup)
    ∧ (∀ base batch : List BScript, (base.map BScript.id).Nodup →
      ((mergeScriptsBuild base batch).map BScript.id).Nodup) := by
  constructor
  · intro base batch h
    exact mergeBy_nodup ⟨Script.id, Script.lastModified, strNewer⟩ base batch h
  · intro base batch h
    exact mergeBy_nodup ⟨BScript.id, BScript.lastModified, dateNewer⟩
      base batch h

/-- Claim C3, witness: a concrete unique-id base stays unique-id after a
merge that both replaces and appends. -/
theorem claim3_witness :
    ([recU1].map Script.id).Nodup ∧
    ((mergeScriptsUM [recU1] [recStrOld, recU2]).map Script.id).Nodup :=
  ⟨by decide, claim3_id_unique.1 [recU1] [recStrOld, recU2] (by decide)⟩

/-- Claim C4, counterexample.  With the rate limit hit on query 2 of 3,
the loop does return the normalized union of queries 1 and 3 and raises
nothing — but the notice it logs is error-level (`console.error` on the
caught per-query rejection), not the warning the claim states. -/
theorem claim4_counterexample :
    (updateFeedFetch respsRateLimited).1 =
      [normalizeRepo rawQ1, normalizeRepo rawQ3] ∧
    (updateFeedFetch respsRateLimited).2 =
      [⟨LogLevel.error,
        "  Error with query: GitHub API rate limit exceeded. Set GITHUB_TOKEN for higher limits."⟩] ∧
    LogLevel.error ≠ LogLevel.warn := by
  refine ⟨?_, ?_, by decide⟩ <;> decide

/-- Claim C4, amended.  A rate-limit response or fetch failure on one
query of the updateFeed loop contributes an empty result with a logged
notice — error-level there, since the rate limit surfaces as a caught
per-query rejection; the warning-level notice for a rate limit belongs
to the single-query browser fetch — and does not abort the remaining
queries or raise an exception: the returned records are the
concatenation, in query order, of the normalized items of exactly the
successful queries, with one error log entry per failed query. -/
theorem claim4_fail_soft :
    (∀ resps : List FetchResponse,
      updateFeedFetch resps =
        ((resps.map fun resp =>
            match searchReposUF resp with
            | .ok repos => repos.map normalizeRepo
            | .error _ => []).flatten,
         resps.filterMap fun resp =>
            match searchReposUF resp with
            | .ok _ => none
            | .error e => some ⟨.error, "  Error with query: " ++ e⟩))
    ∧ fetchFromGitHubUM true (.httpStatus 403) =
        ([], [⟨.warn, "GitHub API rate limit reached"⟩]) := by
  exact ⟨updateFeedFetch_eq, rfl⟩

/-- Claim C5, counterexample.  The claim states that intra-batch dedup
keeps the instance with the newest `lastModified` per id;
`deduplicateRepos` keeps the first occurrence, here the strictly older
one. -/
theorem claim5_counterexample :
    deduplicateRepos [repoDupOld, repoDupNew] = [repoDupOld] ∧
    jsDateMillis repoDupOld.updated_at = some 1704067200000 ∧
    jsDateMillis repoDupNew.updated_at = some 1709251200000 ∧
    (1704067200000 : Int) < 1709251200000 ∧
    repoDupOld ≠ repoDupNew := by
  refine ⟨?_, by decide, by decide, by decide, by decide⟩
  decide

/-- Claim C5, amended.  The pre-merge intra-batch deduplication keeps,
for every id, the first-encountered instance in the fetched batch (not
the newest `lastModified`), and the deduplicated batch contains exactly
one record per distinct id: ids are pairwise distinct afterwards, every
kept record is the first batch occurrence of its id, and every batch id
survives. -/
theorem claim5_dedup :
    ∀ repos : List Repo,
      ((deduplicateRepos repos).map Repo.id).Nodup ∧
      (∀ r ∈ deduplicateRepos repos,
        repos.find? (fun x => x.id == r.id) = some r) ∧
      (∀ z ∈ repos, ∃ r ∈ deduplicateRepos repos, r.id = z.id) := by
  intro repos
  refine ⟨dedupGo_nodup repos [], ?_, ?_⟩
  · intro r hr
    exact dedupGo_first repos [] r hr
  · intro z hz
    rcases dedupGo_covers repos [] z hz with hs | h
    · cases hs
    · exact h

/-- Claim C5, witness: on the two-instance batch, the kept record is the
first occurrence of id 7 and the ids are unique. -/
theorem claim5_witness :
    ((deduplicateRepos [repoDupOld, repoDupNew]).map Repo.id).Nodup ∧
    [repoDupOld, repoDupNew].find? (fun x => x.id == repoDupOld.id) =
      some repoDupOld := by
  refine ⟨(claim5_dedup [repoDupOld, repoDupNew]).1, ?_⟩
  exact (claim5_dedup [repoDupOld, repoDupNew]).2.1 repoDupOld (by decide)

/-- Claim C6, counterexample.  The claim bounds the normalized tags
sequence by 8 for every raw record; `parseGitHubRepos` in the browser
manager has no truncation, so a repository with seven topics yields nine
tags. -/
theorem claim6_counterexample :
    (parseGitHubRepo rawManyTopics).tags.length = 9 ∧ ¬ (9 ≤ 8) := by
  exact ⟨by decide, by decide⟩

/-- Claim C6, amended.  The build-script normalizer produces exactly the
first 8 entries of the provenance tags followed by the upstream topics in
order — hence begins with ("github", "repository"), never exceeds 8, and
keeps all topics whenever there are at most 6.  The browser manager
normalizer produces the same sequence without any truncation, so its
length is 2 plus the topic count and can exceed 8. -/
theorem claim6_normalizer_tags :
    (∀ repo : RawRepo, (buildRepoToScript repo).tags =
      (["github", "repository"] ++ repo.topics.getD []).take 8)
    ∧ (∀ repo : RawRepo, (buildRepoToScript repo).tags.length ≤ 8)
    ∧ (∀ repo : RawRepo,
        (buildRepoToScript repo).tags.take 2 = ["github", "repository"])
    ∧ (∀ repo : RawRepo, (parseGitHubRepo repo).tags =
        ["github", "repository"] ++ repo.topics.getD [])
    ∧ (∀ repo : RawRepo, (repo.topics.getD []).length ≤ 6 →
        (buildRepoToScript repo).tags =
          ["github", "repository"] ++ repo.topics.getD []) := by
  refine ⟨fun repo => rfl, ?_, ?_, fun repo => rfl, ?_⟩
  · intro repo
    show ((["github", "repository"] ++ repo.topics.getD []).take 8).length ≤ 8
    rw [List.length_take]
    exact min_le_left _ _
  · intro repo
    show ((["github", "repository"] ++ repo.topics.getD []).take 8).take 2 =
      ["github", "repository"]
    rw [List.take_take]
    rfl
  · intro repo h
    show (["github", "repository"] ++ repo.topics.getD []).take 8 =
      ["github", "repository"] ++ repo.topics.getD []
    refine List.take_of_length_le ?_
    rw [List.length_append]
    simpa using by omega

/-- Claim C6, witness: with two topics nothing is truncated and the
provenance tags lead. -/
theorem claim6_witness :
    ((rawTwoTopics.topics.getD []).length ≤ 6) ∧
    (buildRepoToScript rawTwoTopics).tags =
      ["github", "repository"] ++ rawTwoTopics.topics.getD [] :=
  ⟨by decide, claim6_normalizer_tags.2.2.2.2 rawTwoTopics (by decide)⟩

/-- Claim C7: getRecent returns the first limit records of the stable
recency sort of the collection — a permutation of the collection, ordered
so that no record is followed by one with a strictly newer parsed
`lastModified` (descending once timestamps parse), with records of equal
parsed `lastModified` kept in their original relative order; being a pure
function of the collection, the underlying collection is untouched. -/
theorem claim7_get_recent :
    ∀ (scripts : List Script) (limit : Nat),
      getRecent limit scripts = (sortByRecency scripts).take limit ∧
      (sortByRecency scripts).Perm scripts ∧
      (sortByRecency scripts).Pairwise RecAhead ∧
      (sortByRecency scripts).Pairwise (fun a b => ∀ ka kb : Int,
        recentKey a = some ka → recentKey b = some kb → kb ≤ ka) ∧
      ∀ k : Int,
        (sortByRecency scripts).filter (fun s => recentKey s == some k) =
          scripts.filter fun s => recentKey s == some k := by
  intro scripts limit
  refine ⟨rfl, sortByRecency_perm scripts, sortByRecency_sorted scripts,
    ?_, fun k => sortByRecency_stable scripts k⟩
  refine (sortByRecency_sorted scripts).imp ?_
  intro a b hR ka kb hka hkb
  unfold RecAhead at hR
  rw [hka, hkb] at hR
  exact le_of_not_lt (of_decide_eq_false hR)

/-- Claim C7, witness: the three-record scenario with a tie on the second
and third timestamps. -/
theorem claim7_witness :
    getRecent 2 [recR1, recR2, recR3] =
      (sortByRecency [recR1, recR2, recR3]).take 2 ∧
    (sortByRecency [recR1, recR2, recR3]).Perm [recR1, recR2, recR3] :=
  ⟨(claim7_get_recent [recR1, recR2, recR3] 2).1,
   (claim7_get_recent [recR1, recR2, recR3] 2).2.1⟩

-- The scenario of the specification, evaluated: with timestamps
-- 2024-01-01, 2024-01-03, 2024-01-03 the tied second and third records
-- come back first, in their original relative order.
example : getRecent 2 [recR1, recR2, recR3] = [recR2, recR3] := by decide

/-- Claim C8: search lowercases the query once, so any two queries with
the same lowercasing return identical result lists, and a record matches
exactly when the lowered query is a substring of its lowered title,
lowered description, or some lowered tag. -/
theorem claim8_search_case_insensitive :
    (∀ (scripts : List Script) (q1 q2 : String),
      jsToLower q1 = jsToLower q2 → search q1 scripts = search q2 scripts)
    ∧ (∀ (scripts : List Script) (q : String) (s : Script),
        s ∈ search q scripts ↔ s ∈ scripts ∧
          (strIncludes (jsToLower s.title) (jsToLower q) = true ∨
           strIncludes (jsToLower s.description) (jsToLower q) = true ∨
           ∃ t ∈ s.tags, strIncludes (jsToLower t) (jsToLower q) = true)) := by
  constructor
  · intro scripts q1 q2 h
    unfold search
    rw [h]
  · intro scripts q s
    simp [search, List.mem_filter, List.any_eq_true, and_assoc, or_assoc]

/-- A record whose title matches the query of the scenario. -/
def recSearch : Script := sampleScript "s" "2024-01-01" "AHK Tools"

/-- Claim C8, witness: the scenario queries AHK and ahk agree on a
concrete collection. -/
theorem claim8_witness :
    jsToLower "AHK" = jsToLower "ahk" ∧
    search "AHK" [recSearch, recU2] = search "ahk" [recSearch, recU2] :=
  ⟨by decide,
   claim8_search_case_insensitive.1 [recSearch, recU2] "AHK" "ahk" (by decide)⟩

-- The search itself evaluated on that collection.
example : search "AHK" [recSearch, recU2] = [recSearch] := by decide

/-- Claim C9: with a cache entry present, loadFromCache merges it into
the in-memory scripts and reports true exactly when the age of the entry
is strictly below the TTL; at or above the TTL the call returns false and
the state — scripts, cache entry included — is returned unchanged. -/
theorem claim9_cache_ttl :
    ∀ (st : ManagerState) (now ttl : Int) (cached : CacheData),
      st.storage = some (some cached) →
      (ttl ≤ now - cached.timestamp →
        loadFromCache now ttl st = (false, st)) ∧
      (now - cached.timestamp < ttl →
        loadFromCache now ttl st =
          (true, { st with
            scripts := mergeScriptsUM st.scripts cached.scripts })) := by
  intro st now ttl cached hs
  constructor
  · intro h
    simp only [loadFromCache, hs]
    rw [if_neg (not_lt.mpr h)]
  · intro h
    simp only [loadFromCache, hs]
    rw [if_pos h]

/-- Claim C9, witness: a stale entry (age 9000 at TTL 5000) is ignored
and the whole state survives unchanged. -/
theorem claim9_witness :
    ((5000 : Int) ≤ 10000 - 1000) ∧
    loadFromCache 10000 5000 stStale = (false, stStale) :=
  ⟨by decide, (claim9_cache_ttl stStale 10000 5000 ⟨[recU2], 1000⟩ rfl).1
    (by decide)⟩

/-- Claim C10: update is total — for every transport outcome, callback
list and state it returns a value (nothing escapes): the returned list is
the stored scripts, lastUpdate is refreshed to the current time,
saveToCache ran (persisting the scripts and timestamp whenever the
environment has storage), every registered callback was invoked exactly
once with the fresh scripts (throwing callbacks merely record an error
outcome), and an empty fetch skips the merge, leaving the scripts
unchanged. -/
theorem claim10_update_total :
    ∀ (callbacks : List Callback) (nowIso : String) (nowMs : Int)
      (enable : Bool) (resp : FetchResponse) (st : ManagerState),
      (update callbacks nowIso nowMs enable resp st).2.1.lastUpdate =
        some nowIso ∧
      (update callbacks nowIso nowMs enable resp st).1 =
        (update callbacks nowIso nowMs enable resp st).2.1.scripts ∧
      (update callbacks nowIso nowMs enable resp st).2.2 =
        callbacks.map (fun cb =>
          cb (update callbacks nowIso nowMs enable resp st).1
            (some nowIso)) ∧
      (update callbacks nowIso nowMs enable resp st).2.2.length =
        callbacks.length ∧
      (st.storage = none →
        (update callbacks nowIso nowMs enable resp st).2.1.storage = none) ∧
      (∀ entry, st.storage = some entry →
        (update callbacks nowIso nowMs enable resp st).2.1.storage =
          some (some ⟨(update callbacks nowIso nowMs enable resp st).1,
            nowMs⟩)) ∧
      ((fetchFromGitHubUM enable resp).1 = [] →
        (update callbacks nowIso nowMs enable resp st).1 = st.scripts) := by
  intro callbacks nowIso nowMs enable resp st
  cases hs : st.storage with
  | none =>
    refine ⟨?_, ?_, ?_, ?_, ?_, ?_, ?_⟩
    · simp [update, saveToCache, notifyUpdate, hs]
    · simp [update, saveToCache, notifyUpdate, hs]
    · simp [update, saveToCache, notifyUpdate, hs]
    · simp [update, saveToCache, notifyUpdate, hs]
    · intro _
      simp [update, saveToCache, hs]
    · intro entry he
      cases he
    · intro h
      simp [update, saveToCache, notifyUpdate, hs, h]
  | some entry =>
    refine ⟨?_, ?_, ?_, ?_, ?_, ?_, ?_⟩
    · simp [update, saveToCache, notifyUpdate, hs]
    · simp [update, saveToCache, notifyUpdate, hs]
    · simp [update, saveToCache, notifyUpdate, hs]
    · simp [update, saveToCache, notifyUpdate, hs]
    · intro he
      cases he
    · intro entry2 _
      simp [update, saveToCache, notifyUpdate, hs]
    · intro h
      simp [update, saveToCache, notifyUpdate, hs, h]

/-- Claim C10, witness: a network failure with a throwing first callback
still saves the cache, leaves the collection unchanged, and invokes both
callbacks. -/
theorem claim10_witness :
    (update cbsDemo "2024-06-01T00:00:00Z" 100 true
      (.networkError "down") stEmptyCache).2.1.storage =
      some (some ⟨(update cbsDemo "2024-06-01T00:00:00Z" 100 true
        (.networkError "down") stEmptyCache).1, 100⟩) ∧
    (update cbsDemo "2024-06-01T00:00:00Z" 100 true
      (.networkError "down") stEmptyCache).1 = stEmptyCache.scripts ∧
    (update cbsDemo "2024-06-01T00:00:00Z" 100 true
      (.networkError "down") stEmptyCache).2.2.length = cbsDemo.length :=
  ⟨(claim10_update_total cbsDemo "2024-06-01T00:00:00Z" 100 true
      (.networkError "down") stEmptyCache).2.2.2.2.2.1 none rfl,
   (claim10_update_total cbsDemo "2024-06-01T00:00:00Z" 100 true
      (.networkError "down") stEmptyCache).2.2.2.2.2.2 rfl,
   (claim10_update_total cbsDemo "2024-06-01T00:00:00Z" 100 true
      (.networkError "down") stEmptyCache).2.2.2.1⟩

-- The per-callback isolation, evaluated: the throwing callback records
-- an error outcome and the second callback still runs.
example :
    (update cbsDemo "2024-06-01T00:00:00Z" 100 true
      (.networkError "down") stEmptyCache).2.2 =
      [Except.error "boom", Except.ok ()] := rfl

end AhkFeed
